import Mathlib

/-!
Verification development for the repository-inspector discovery-and-classification
pipeline.  The TypeScript sources are shallowly embedded as Lean definitions:

* `localeCompareEn` models `String.prototype.localeCompare(_, 'en', {numeric: true})`
  as a natural-sort comparison: maximal digit runs compare by numeric value, with
  ties between runs of equal value broken by the literal run text, so the modelled
  comparator is a linear order on strings.
* `isLikelyBinary` embeds `src/shared/utils/binary.ts` over byte lists, with the
  non-printable threshold as a rational number.
* `classifyByName` / `classifyOne` embed `ClassificationService`; fallible reader
  calls are modelled with `Except`.
* `walkSegs` / `discover` embed `FilesystemWalker.discover` over an inductive
  filesystem-tree model (the iterative stack is rendered as the equivalent
  recursion; the final sort is what the code relies on for output order).
* `PoolStep` is a small-step model of the worker pool of `mapWithConcurrency`.
-/

/-- Three-way comparison on naturals (model of JS numeric comparison of digit-run values). -/
def natCmp (a b : Nat) : Ordering :=
  if a < b then Ordering.lt else if b < a then Ordering.gt else Ordering.eq

/-- Lexicographic lifting of a three-way comparison to lists. -/
def listCmp (cmp : α → α → Ordering) : List α → List α → Ordering
  | [], [] => Ordering.eq
  | [], _ :: _ => Ordering.lt
  | _ :: _, [] => Ordering.gt
  | a :: as, b :: bs => (cmp a b).then (listCmp cmp as bs)

/-- Primary collation weight of a character in the ICU model: letters fold case
(uppercase ASCII maps onto its lowercase code point), everything else keeps its
code point. -/
def charFoldCase (c : Char) : Nat :=
  if 'A' ≤ c ∧ c ≤ 'Z' then c.toNat + 32 else c.toNat

/-- Tertiary collation weight in the ICU model: lowercase and non-letters sort
before uppercase when the primary weights tie (ICU en default: a < A < b). -/
def charCaseLevel (c : Char) : Nat :=
  if 'A' ≤ c ∧ c ≤ 'Z' then 1 else 0

/-- Three-way comparison on characters in the ICU 'en' model: case-insensitive
primary weight first, then the case level, so that a < B and a < A < b. -/
def charCmp (a b : Char) : Ordering :=
  (natCmp (charFoldCase a) (charFoldCase b)).then
    (natCmp (charCaseLevel a) (charCaseLevel b))

/-- A key element of the natural-sort decomposition: a maximal digit run reduced
to its numeric value (as ICU numeric collation does — the literal digits are
forgotten, so runs that differ only in leading zeros collate equal) or a single
non-digit character. -/
inductive NatSortKey : Type
  | num (v : Nat)
  | ch (c : Char)
deriving DecidableEq

/-- Single pass building the natural-sort key: a pending digit-run value is
accumulated most-significant-digit first and flushed when the run ends. -/
def natKeyGo : Option Nat → List Char → List NatSortKey
  | some v, [] => [NatSortKey.num v]
  | none, [] => []
  | some v, c :: cs =>
    if c.isDigit then natKeyGo (some (v * 10 + (c.toNat - 48))) cs
    else NatSortKey.num v :: NatSortKey.ch c :: natKeyGo none cs
  | none, c :: cs =>
    if c.isDigit then natKeyGo (some (c.toNat - 48)) cs
    else NatSortKey.ch c :: natKeyGo none cs

/-- Decomposes a character list into natural-sort key elements: maximal digit runs
become `num` elements carrying their numeric value, other characters become `ch`. -/
def natKey (l : List Char) : List NatSortKey := natKeyGo none l

/-- Three-way comparison of natural-sort key elements: digit runs compare by value
only (equal values collate equal, exactly as ICU numeric collation ties e.g.
`01` with `1`), and sort before non-digit characters. -/
def keyCmp : NatSortKey → NatSortKey → Ordering
  | NatSortKey.num v, NatSortKey.num w => natCmp v w
  | NatSortKey.num _, NatSortKey.ch _ => Ordering.lt
  | NatSortKey.ch _, NatSortKey.num _ => Ordering.gt
  | NatSortKey.ch a, NatSortKey.ch b => charCmp a b

/-- Model of `relativePath.localeCompare(other, 'en', { numeric: true })`:
natural-sort comparison of the two strings.  Digit runs compare by numeric value
only, so distinct strings whose runs are numerically equal (for example `01`
versus `1`) compare equal, as under real ICU numeric collation; the comparison is
total and transitive but not antisymmetric. -/
def localeCompareEn (a b : String) : Ordering :=
  listCmp keyCmp (natKey a.data) (natKey b.data)

/-- Numeric interpretation of a key element used to reason about `keyCmp`:
digit runs sort in their own class before characters, and characters carry their
two collation weights. -/
def keyTriple : NatSortKey → Nat × Nat × Nat
  | NatSortKey.num v => (0, v, 0)
  | NatSortKey.ch c => (1, charFoldCase c, charCaseLevel c)

/-- Lexicographic three-way comparison of weight triples. -/
def tripleCmp (x y : Nat × Nat × Nat) : Ordering :=
  (natCmp x.1 y.1).then ((natCmp x.2.1 y.2.1).then (natCmp x.2.2 y.2.2))

/-- Boolean `not greater` relation used to express the ascending sort of the walker. -/
def localeLe (a b : String) : Bool := decide (localeCompareEn a b ≠ Ordering.gt)

/-- The sort the walker applies to the collected relative paths
(`out.sort((a, b) => a.relativePath.localeCompare(b.relativePath, 'en', {numeric: true}))`). -/
def sortPaths (l : List String) : List String := l.mergeSort localeLe

/-- Printable test from `binary.ts`: printable ASCII `[0x20, 0x7e]` or common
whitespace `{TAB 0x09, LF 0x0a, CR 0x0d}`. -/
def isPrintableByte (b : Nat) : Bool :=
  (decide (0x20 ≤ b) && decide (b ≤ 0x7e)) || b == 0x09 || b == 0x0a || b == 0x0d

/-- Options record of `isLikelyBinary`; the threshold is modelled as a rational. -/
structure BinaryHeuristicOptions where
  treatNulAsBinary : Bool
  nonPrintableThreshold : ℚ
deriving DecidableEq

/-- Default options of `isLikelyBinary`: `{ treatNulAsBinary: true, nonPrintableThreshold: 0.3 }`. -/
def defaultBinaryHeuristicOptions : BinaryHeuristicOptions := ⟨true, 3/10⟩

/-- The scanning loop of `isLikelyBinary`: returns `none` when the NUL short-circuit
fires, otherwise `some` of the number of non-printable bytes seen. -/
def scanNonPrintable (treatNul : Bool) : List Nat → Option Nat
  | [] => some 0
  | b :: rest =>
    if treatNul && b == 0 then none
    else
      match scanNonPrintable treatNul rest with
      | none => none
      | some n => some ((if isPrintableByte b then 0 else 1) + n)

/-- Embedding of `isLikelyBinary` from `src/shared/utils/binary.ts` over a byte sample. -/
def isLikelyBinary (sample : List Nat) (opts : BinaryHeuristicOptions) : Bool :=
  if sample.length == 0 then false
  else
    match scanNonPrintable opts.treatNulAsBinary sample with
    | none => true
    | some nonPrintable =>
      decide ((nonPrintable : ℚ) / (sample.length : ℚ) > opts.nonPrintableThreshold)

/-- File category vocabulary from `domain/classification/types.ts`. -/
inductive FileCategory : Type
  | code
  | config
  | omit
deriving DecidableEq

/-- Omit reasons from `domain/classification/types.ts`. -/
inductive OmitReason : Type
  | SIZE_OVER_LIMIT
  | LIKELY_BINARY
  | READ_ERROR
  | UNKNOWN_ENCODING
deriving DecidableEq

/-- Record `ClassificationDecision` from `domain/classification/types.ts`. -/
structure ClassificationDecision where
  category : FileCategory
  reason : Option OmitReason
  languageHint : Option String
deriving DecidableEq

/-- Record `ClassifiedPath` from `domain/classification/types.ts`. -/
structure ClassifiedPath where
  relativePath : String
  decision : ClassificationDecision
deriving DecidableEq

/-- ASCII model of JS `toLowerCase` on one character. -/
def lowerChar (c : Char) : Char :=
  if 'A' ≤ c ∧ c ≤ 'Z' then Char.ofNat (c.toNat + 32) else c

/-- ASCII model of `String.prototype.toLowerCase`. -/
def lowerStr (s : String) : String := String.mk (s.data.map lowerChar)

/-- Model of JS `String.prototype.startsWith`. -/
def strStartsWith (s p : String) : Bool := p.data.isPrefixOf s.data

/-- Model of JS `String.prototype.endsWith`. -/
def strEndsWith (s p : String) : Bool := p.data.isSuffixOf s.data

/-- Model of JS `String.prototype.split('/')` over the character list. -/
def splitCharsOnSlash : List Char → List (List Char)
  | [] => [[]]
  | c :: cs =>
    match splitCharsOnSlash cs with
    | [] => if c = '/' then [[], []] else [[c]]
    | h :: t => if c = '/' then [] :: h :: t else (c :: h) :: t

/-- Segments of a POSIX path string, as produced by `path.split('/')`. -/
def splitSlash (s : String) : List String := (splitCharsOnSlash s.data).map String.mk

/-- Static table `CONFIG_BASENAMES` from `domain/policies/config-names.ts`
(note the capital D of `Dockerfile`, kept exactly as in the source). -/
def CONFIG_BASENAMES : List String :=
  [ "package.json", "package-lock.json", "pnpm-lock.yaml", "yarn.lock",
    ".npmrc", ".nvmrc", ".editorconfig", ".gitattributes", ".gitignore",
    ".gitmodules", ".env", ".env.local", ".env.example", "tsconfig.json",
    "jsconfig.json", ".eslintrc", ".eslintrc.js", ".eslintrc.cjs",
    ".eslintrc.json", ".prettierrc", ".prettierrc.js", ".prettierrc.cjs",
    ".prettierrc.json", ".prettierignore", "prettier.config.js",
    "prettier.config.cjs", "jest.config.js", "jest.config.cjs",
    "vitest.config.ts", "vitest.config.js", "webpack.config.js",
    "rollup.config.js", "vite.config.ts", "vite.config.js", "Dockerfile",
    "docker-compose.yml", "docker-compose.yaml" ]

/-- Static table `CONFIG_DIR_PREFIXES` from `domain/policies/config-names.ts`. -/
def CONFIG_DIR_PREFIXES : List String :=
  [ ".github/", ".gitlab/", ".circleci/", ".husky/" ]

/-- Function `isKnownConfigByBasename` from `config-names.ts`. -/
def isKnownConfigByBasename (basenameLower : String) : Bool :=
  CONFIG_BASENAMES.contains basenameLower

/-- Function `isUnderKnownConfigDir` from `config-names.ts`. -/
def isUnderKnownConfigDir (posixRelPathLower : String) : Bool :=
  CONFIG_DIR_PREFIXES.any (fun p => strStartsWith posixRelPathLower p)

/-- Function `extToLangHint` from `ClassificationService`. -/
def extToLangHint (p : String) : Option String :=
  if strEndsWith p ".ts" then some "ts"
  else if strEndsWith p ".tsx" then some "tsx"
  else if strEndsWith p ".js" || strEndsWith p ".mjs" || strEndsWith p ".cjs" then some "js"
  else if strEndsWith p ".json" || strEndsWith p ".jsonc" then some "json"
  else if strEndsWith p ".yml" || strEndsWith p ".yaml" then some "yaml"
  else if strEndsWith p ".md" || strEndsWith p ".mdx" then some "md"
  else if strEndsWith p ".html" then some "html"
  else if strEndsWith p ".xml" then some "xml"
  else if strEndsWith p ".css" then some "css"
  else if strEndsWith p ".scss" then some "scss"
  else if strEndsWith p ".sass" then some "sass"
  else none

/-- The basename computation `lower.split('/').pop() ?? lower` of `classifyByName`. -/
def basenameOfLower (lower : String) : String := (splitSlash lower).getLastD lower

/-- Method `ClassificationService.classifyByName`: pure classification by path string. -/
def classifyByName (relativePath : String) : ClassificationDecision :=
  let lower := lowerStr relativePath
  if isUnderKnownConfigDir lower then
    ⟨FileCategory.config, none, extToLangHint lower⟩
  else
    let base := basenameOfLower lower
    if isKnownConfigByBasename base then
      ⟨FileCategory.config, none, extToLangHint lower⟩
    else
      ⟨FileCategory.code, none, extToLangHint lower⟩

/-- Modelled from the spec: `DEFAULT_MAX_BYTES` lives in `src/shared/constants.ts`,
which is not among the provided sources; the spec fixes the default `maxBytes`
at 204800 bytes (200 KiB). -/
def DEFAULT_MAX_BYTES : Nat := 204800

/-- Constant `DEFAULT_SAMPLE_BYTES` from `ClassificationService` (head sample size). -/
def DEFAULT_SAMPLE_BYTES : Nat := 4096

/-- The reader responses a single `classifyOne` call can observe: the outcome of
`reader.stat` (a size) and of `reader.readHead` (a byte sample), each fallible. -/
structure ReaderResponses where
  statResult : Except Unit Nat
  headResult : Except Unit (List Nat)

/-- Method `ClassificationService.classifyOne`: size stage, then binary stage, then naming
stage; reader failures propagate as `Except.error`. -/
def classifyOne (maxBytes : Nat) (relativePath : String) (r : ReaderResponses)
    (binaryCheck : List Nat → Bool) : Except Unit ClassifiedPath := do
  let sizeBytes ← r.statResult
  if sizeBytes > maxBytes then
    return ⟨relativePath, ⟨FileCategory.omit, some OmitReason.SIZE_OVER_LIMIT, none⟩⟩
  let head ← r.headResult
  if binaryCheck head then
    return ⟨relativePath, ⟨FileCategory.omit, some OmitReason.LIKELY_BINARY, none⟩⟩
  return ⟨relativePath, classifyByName relativePath⟩

/-- Filesystem model for the walker.  A node is a regular file, a symbolic link,
something else (`special`: sockets, devices, or anything for which `lstat` reports
none of the three kinds of interest), or a directory.  A directory carries an
`openable` flag (`opendir` succeeds, or throws — a throw is caught and the subtree
skipped), a `readable` flag (enumerating the opened directory via
`dirHandle.read()` and closing it succeed, or one of them throws — the entry
loop sits in a `try`/`finally` with no `catch`, so such a throw is not caught and
aborts the whole discovery), and its entries; each entry records the name, whether
the dirent reports the node's type (`true`) or leaves it indeterminate so that the
walker must fall back to `lstat` (`false`), and the node itself as revealed by
`lstat`. -/
inductive FSTree : Type
  | file : FSTree
  | symlink : FSTree
  | special : FSTree
  | dir (openable readable : Bool) (children : List (String × Bool × FSTree)) : FSTree

mutual

/-- Embedding of the traversal loop of `FilesystemWalker.discover`, collecting the
relative paths (as segment lists) of the emitted files.  The iterative explicit
stack of the source is rendered as the equivalent recursion: the set of emitted
entries and the error outcome are identical, and the code fixes the output order
only by the final sort.  A non-directory root contributes nothing here (the entry
points below validate the root first); an unopenable directory (`opendir` throws)
is skipped silently (`ok []`); a directory whose entry enumeration or close throws
propagates that uncaught failure (`error`), aborting the traversal. -/
def walkSegs (exD exF : List String) (p : List String) :
    FSTree → Except Unit (List (List String))
  | FSTree.file => Except.ok []
  | FSTree.symlink => Except.ok []
  | FSTree.special => Except.ok []
  | FSTree.dir false _ _ => Except.ok []
  | FSTree.dir true false _ => Except.error ()
  | FSTree.dir true true cs => walkChildren exD exF p cs

/-- Per-entry dispatch of the traversal loop: a dirent-reported symlink is skipped,
a reported directory is pushed (unless its name is excluded), a reported file is
emitted (unless its name is excluded), and an entry of indeterminate type
(`known = false`) is re-probed via `lstat` and dispatched the same way; anything
else is ignored.  A failure raised from a subdirectory propagates. -/
def walkChildren (exD exF : List String) (p : List String) :
    List (String × Bool × FSTree) → Except Unit (List (List String))
  | [] => Except.ok []
  | (_, true, FSTree.symlink) :: rest => walkChildren exD exF p rest
  | (name, true, FSTree.dir op2 r2 cs2) :: rest =>
    if exD.contains (lowerStr name) then walkChildren exD exF p rest
    else
      match walkSegs exD exF (p ++ [name]) (FSTree.dir op2 r2 cs2) with
      | Except.error er => Except.error er
      | Except.ok sub =>
        match walkChildren exD exF p rest with
        | Except.error er => Except.error er
        | Except.ok r => Except.ok (sub ++ r)
  | (name, true, FSTree.file) :: rest =>
    match walkChildren exD exF p rest with
    | Except.error er => Except.error er
    | Except.ok r =>
      Except.ok ((if exF.contains (lowerStr name) then [] else [p ++ [name]]) ++ r)
  | (_, true, FSTree.special) :: rest => walkChildren exD exF p rest
  | (_, false, FSTree.symlink) :: rest => walkChildren exD exF p rest
  | (name, false, FSTree.dir op2 r2 cs2) :: rest =>
    if exD.contains (lowerStr name) then walkChildren exD exF p rest
    else
      match walkSegs exD exF (p ++ [name]) (FSTree.dir op2 r2 cs2) with
      | Except.error er => Except.error er
      | Except.ok sub =>
        match walkChildren exD exF p rest with
        | Except.error er => Except.error er
        | Except.ok r => Except.ok (sub ++ r)
  | (name, false, FSTree.file) :: rest =>
    match walkChildren exD exF p rest with
    | Except.error er => Except.error er
    | Except.ok r =>
      Except.ok ((if exF.contains (lowerStr name) then [] else [p ++ [name]]) ++ r)
  | (_, false, FSTree.special) :: rest => walkChildren exD exF p rest

end

/-- Joins path segments with forward slashes (the normalized POSIX relative path). -/
def joinSegs : List String → String
  | [] => ""
  | [s] => s
  | s :: rest => s ++ "/" ++ joinSegs rest

/-- The errors `FilesystemWalker.discover` can propagate: the two fatal root
validation errors, and an uncaught failure of `dirHandle.read()` or
`dirHandle.close()` during traversal (raw fs errors in the source). -/
inductive DiscoverError : Type
  | rootIsSymlink
  | rootNotDirectory
  | readFailure
deriving DecidableEq

/-- Embedding of `FilesystemWalker.discover`: the root is `lstat`-ed, a symlink root
or a non-directory root raises before traversal, and otherwise the traversal runs;
if it completes, its output is sorted with the locale-aware numeric comparator and
returned, and if reading an opened directory failed, that error propagates. -/
def discover (exD exF : List String) : FSTree → Except DiscoverError (List String)
  | FSTree.symlink => Except.error DiscoverError.rootIsSymlink
  | FSTree.file => Except.error DiscoverError.rootNotDirectory
  | FSTree.special => Except.error DiscoverError.rootNotDirectory
  | FSTree.dir op r cs =>
    match walkSegs exD exF [] (FSTree.dir op r cs) with
    | Except.ok l => Except.ok (sortPaths (l.map joinSegs))
    | Except.error _ => Except.error DiscoverError.readFailure

/-- Contribution of one directory entry to the traversal output.  The dirent-known
and the lstat-fallback code paths of the walker dispatch identically on the node
kind revealed, which `walkChildren_cons` below makes precise. -/
def childContrib (exD exF : List String) (p : List String) :
    String × Bool × FSTree → Except Unit (List (List String))
  | (_, _, FSTree.symlink) => Except.ok []
  | (name, _, FSTree.dir op2 r2 cs2) =>
    if exD.contains (lowerStr name) then Except.ok []
    else walkSegs exD exF (p ++ [name]) (FSTree.dir op2 r2 cs2)
  | (name, _, FSTree.file) =>
    Except.ok (if exF.contains (lowerStr name) then [] else [p ++ [name]])
  | (_, _, FSTree.special) => Except.ok []

/-- Resolves a relative path (as segments) in the filesystem model, following the
first child of each matching name, mirroring what `lstat` of the joined path would
reveal. -/
def lookupNode : FSTree → List String → Option FSTree
  | t, [] => some t
  | FSTree.dir _ _ cs, seg :: rest =>
    match cs.find? (fun e => e.1 == seg) with
    | some e => lookupNode e.2.2 rest
    | none => none
  | FSTree.file, _ :: _ => none
  | FSTree.symlink, _ :: _ => none
  | FSTree.special, _ :: _ => none

mutual

/-- Well-formedness of a filesystem model: in every directory the entry names are
pairwise distinct (as on a real filesystem). -/
def wellFormed : FSTree → Bool
  | FSTree.file => true
  | FSTree.symlink => true
  | FSTree.special => true
  | FSTree.dir _ _ cs => decide ((cs.map (fun e => e.1)).Nodup) && wellFormedChildren cs

def wellFormedChildren : List (String × Bool × FSTree) → Bool
  | [] => true
  | e :: rest => wellFormed e.2.2 && wellFormedChildren rest

end

mutual

/-- No uncaught read failure can occur anywhere in the tree: every directory that
opens also enumerates and closes successfully.  (An unopenable directory is
skipped before its entries are read, so its contents are unconstrained.) -/
def readSafe : FSTree → Bool
  | FSTree.file => true
  | FSTree.symlink => true
  | FSTree.special => true
  | FSTree.dir false _ _ => true
  | FSTree.dir true r cs => r && readSafeChildren cs

def readSafeChildren : List (String × Bool × FSTree) → Bool
  | [] => true
  | e :: rest => readSafe e.2.2 && readSafeChildren rest

end

/-- The sequential loop of `mapWithConcurrency` for `concurrency <= 1`:
`for (let i = 0; i < items.length; i++) out.push(await mapper(items[i], i))`,
with the mapper modelled as a pure function of item and index. -/
def mapSeq (f : α → Nat → β) : List α → Nat → List β
  | [], _ => []
  | a :: rest, i => f a i :: mapSeq f rest (i + 1)

/-- Function `mapWithConcurrency` on the `concurrency <= 1` branch. -/
def mapWithConcurrencySeq (items : List α) (f : α → Nat → β) : List β := mapSeq f items 0

/-- State of the worker pool of `mapWithConcurrency` for `concurrency > 1`:
the shared cursor `next`, the shared `results` array (unfilled slots `none`),
the number of workers about to claim an index, and the indices claimed by workers
whose `mapper` call is still in flight. -/
structure PoolState (β : Type) where
  next : Nat
  results : List (Option β)
  claiming : Nat
  writing : List Nat
deriving DecidableEq

/-- Small-step semantics of the worker pool.  A worker atomically claims the cursor
value and bumps the cursor; it exits if the claimed index is out of range, else it
computes the (pure) mapper at the claimed index and writes the result into exactly
that slot, then goes back to claiming.  Steps interleave arbitrarily. -/
inductive PoolStep (items : List α) (f : α → Nat → β) : PoolState β → PoolState β → Prop
  | claimExit (s : PoolState β) (h : 0 < s.claiming) (hge : items.length ≤ s.next) :
      PoolStep items f s ⟨s.next + 1, s.results, s.claiming - 1, s.writing⟩
  | claimWork (s : PoolState β) (h : 0 < s.claiming) (hlt : s.next < items.length) :
      PoolStep items f s ⟨s.next + 1, s.results, s.claiming - 1, s.next :: s.writing⟩
  | write (s : PoolState β) (j : Nat) (hj : j ∈ s.writing) (hlt : j < items.length) :
      PoolStep items f s
        ⟨s.next, s.results.set j (some (f (items.get ⟨j, hlt⟩) j)), s.claiming + 1,
          s.writing.erase j⟩

/-- Multi-step reachability for the pool. -/
def PoolReach (items : List α) (f : α → Nat → β) : PoolState β → PoolState β → Prop :=
  Relation.ReflTransGen (PoolStep items f)

/-- Initial pool state: cursor at zero, all slots empty, `k` workers claiming. -/
def initPool (k len : Nat) : PoolState β := ⟨0, List.replicate len none, k, []⟩

/-- Invariant of the pool: result slots stand filled exactly for claimed-and-written
indices, in-flight claims are distinct and in range, and workers can only have
exited once the cursor passed the end. -/
def PoolInv (items : List α) (f : α → Nat → β) (k : Nat) (s : PoolState β) : Prop :=
  s.results.length = items.length ∧
  (∀ j, j ∈ s.writing → j < s.next ∧ j < items.length) ∧
  s.writing.Nodup ∧
  (k ≤ s.claiming + s.writing.length ∨ items.length ≤ s.next) ∧
  (∀ j (hj : j < items.length),
    s.results[j]? =
      if j < s.next ∧ j ∉ s.writing then some (some (f (items.get ⟨j, hj⟩) j))
      else some none)

/-- Row type assembled by `generateReport` for each classified file. -/
structure Row where
  relativePath : String
  category : FileCategory
  reason : Option OmitReason
deriving DecidableEq

/-- The binary check `generateReport` passes to the classifier:
`(buf) => isLikelyBinary(buf)` with the default heuristic options. -/
def defaultBinaryCheck (buf : List Nat) : Bool :=
  isLikelyBinary buf defaultBinaryHeuristicOptions

/-- The per-item mapper of `generateReport`: classify one discovered path, convert
the decision to a `Row`, and catch any exception as `omit/READ_ERROR`. -/
def classifyRow (maxBytes : Nat) (readers : String → ReaderResponses)
    (binaryCheck : List Nat → Bool) (rel : String) : Row :=
  match classifyOne maxBytes rel (readers rel) binaryCheck with
  | Except.ok r =>
    match r.decision.category with
    | FileCategory.code => ⟨rel, FileCategory.code, none⟩
    | FileCategory.config => ⟨rel, FileCategory.config, none⟩
    | FileCategory.omit => ⟨rel, FileCategory.omit, r.decision.reason⟩
  | Except.error _ => ⟨rel, FileCategory.omit, some OmitReason.READ_ERROR⟩

/-- Reference result of the classification stage of `generateReport` over the
discovered relative paths (the mapper is pure per path, so this is the value every
complete pool run must produce). -/
def generateReportRows (files : List String) (readers : String → ReaderResponses) : List Row :=
  mapWithConcurrencySeq files
    (fun rel _ => classifyRow DEFAULT_MAX_BYTES readers defaultBinaryCheck rel)

/-- The reader used by the witness below: `bad.bin` fails both reads, everything
else is a 10-byte file whose head sample is the single byte `h`. -/
def witnessReaders : String → ReaderResponses := fun rel =>
  if rel = "bad.bin" then ⟨Except.error (), Except.error ()⟩
  else ⟨Except.ok 10, Except.ok [104]⟩

/-- Helper: an `Ordering.then` composition is `eq` iff both parts are. -/
theorem ordThen_eq_eq {o p : Ordering} : o.then p = Ordering.eq ↔ o = Ordering.eq ∧ p = Ordering.eq := by
  cases o <;> simp [Ordering.then]

/-- Helper: an `Ordering.then` composition is `lt` iff the first part is `lt`, or it
is `eq` and the second is `lt`. -/
theorem ordThen_eq_lt {o p : Ordering} : o.then p = Ordering.lt ↔ o = Ordering.lt ∨ (o = Ordering.eq ∧ p = Ordering.lt) := by
  cases o <;> simp [Ordering.then]

/-- Helper: `Ordering.swap` distributes over `Ordering.then`. -/
theorem ordThen_swap {o p : Ordering} : (o.then p).swap = o.swap.then p.swap := by
  cases o <;> cases p <;> rfl

theorem natCmp_swap (a b : Nat) : natCmp a b = (natCmp b a).swap := by
  unfold natCmp; split <;> split <;> simp_all [Ordering.swap] <;> omega

theorem natCmp_eq_iff {a b : Nat} : natCmp a b = Ordering.eq ↔ a = b := by
  by_cases h₁ : a < b
  · simp only [natCmp, if_pos h₁]; constructor
    · intro h; cases h
    · intro h; omega
  · by_cases h₂ : b < a
    · simp only [natCmp, if_neg h₁, if_pos h₂]; constructor
      · intro h; cases h
      · intro h; omega
    · simp only [natCmp, if_neg h₁, if_neg h₂]; constructor
      · intro _; omega
      · intro _; trivial

theorem natCmp_lt_trans {a b c : Nat} (h₁ : natCmp a b = Ordering.lt)
    (h₂ : natCmp b c = Ordering.lt) : natCmp a c = Ordering.lt := by
  unfold natCmp at * ; split at h₁ <;> split at h₂ <;> simp_all <;> omega

theorem natCmp_lt_iff {a b : Nat} : natCmp a b = Ordering.lt ↔ a < b := by
  by_cases h₁ : a < b
  · simp only [natCmp, if_pos h₁]; simp [h₁]
  · by_cases h₂ : b < a
    · simp only [natCmp, if_neg h₁, if_pos h₂]
      constructor
      · intro h; cases h
      · intro h; omega
    · simp only [natCmp, if_neg h₁, if_neg h₂]
      constructor
      · intro h; cases h
      · intro h; omega

theorem ordThen_eq_right (o : Ordering) : o.then Ordering.eq = o := by
  cases o <;> rfl

theorem listCmp_swap (cmp : α → α → Ordering) (hswap : ∀ a b, cmp a b = (cmp b a).swap) :
    ∀ x y, listCmp cmp x y = (listCmp cmp y x).swap
  | [], [] => rfl
  | [], _ :: _ => rfl
  | _ :: _, [] => rfl
  | a :: as, b :: bs => by
    simp only [listCmp, ordThen_swap, hswap a b, listCmp_swap cmp hswap as bs]

theorem keyCmp_eq_tripleCmp (a b : NatSortKey) :
    keyCmp a b = tripleCmp (keyTriple a) (keyTriple b) := by
  cases a with
  | num v =>
    cases b with
    | num w =>
      show natCmp v w = (natCmp v w).then Ordering.eq
      rw [ordThen_eq_right]
    | ch c => rfl
  | ch c =>
    cases b with
    | num w => rfl
    | ch d => rfl

theorem tripleCmp_swap (x y : Nat × Nat × Nat) : tripleCmp x y = (tripleCmp y x).swap := by
  unfold tripleCmp
  rw [ordThen_swap, ordThen_swap, ← natCmp_swap, ← natCmp_swap, ← natCmp_swap]

theorem tripleCmp_lt_iff (x y : Nat × Nat × Nat) :
    tripleCmp x y = Ordering.lt ↔
      x.1 < y.1 ∨ (x.1 = y.1 ∧ (x.2.1 < y.2.1 ∨ (x.2.1 = y.2.1 ∧ x.2.2 < y.2.2))) := by
  unfold tripleCmp
  rw [ordThen_eq_lt, ordThen_eq_lt, natCmp_lt_iff, natCmp_eq_iff, natCmp_lt_iff,
    natCmp_eq_iff, natCmp_lt_iff]

theorem tripleCmp_eq_iff (x y : Nat × Nat × Nat) :
    tripleCmp x y = Ordering.eq ↔ x.1 = y.1 ∧ x.2.1 = y.2.1 ∧ x.2.2 = y.2.2 := by
  unfold tripleCmp
  rw [ordThen_eq_eq, ordThen_eq_eq, natCmp_eq_iff, natCmp_eq_iff, natCmp_eq_iff]

theorem keyCmp_swap (a b : NatSortKey) : keyCmp a b = (keyCmp b a).swap := by
  rw [keyCmp_eq_tripleCmp, keyCmp_eq_tripleCmp, tripleCmp_swap]

theorem keyCmp_laws :
    (∀ a b c : NatSortKey,
      keyCmp a b = Ordering.lt → keyCmp b c = Ordering.lt → keyCmp a c = Ordering.lt) ∧
    (∀ a b c : NatSortKey,
      keyCmp a b = Ordering.eq → keyCmp b c = Ordering.lt → keyCmp a c = Ordering.lt) ∧
    (∀ a b c : NatSortKey,
      keyCmp a b = Ordering.lt → keyCmp b c = Ordering.eq → keyCmp a c = Ordering.lt) ∧
    (∀ a b c : NatSortKey,
      keyCmp a b = Ordering.eq → keyCmp b c = Ordering.eq → keyCmp a c = Ordering.eq) := by
  refine ⟨?_, ?_, ?_, ?_⟩ <;> intro a b c h₁ h₂ <;>
    rw [keyCmp_eq_tripleCmp] at h₁ h₂ ⊢
  · rw [tripleCmp_lt_iff] at h₁ h₂ ⊢; omega
  · rw [tripleCmp_eq_iff] at h₁; rw [tripleCmp_lt_iff] at h₂ ⊢; omega
  · rw [tripleCmp_lt_iff] at h₁ ⊢; rw [tripleCmp_eq_iff] at h₂; omega
  · rw [tripleCmp_eq_iff] at h₁ h₂ ⊢; omega

theorem listCmp_laws (cmp : α → α → Ordering)
    (hll : ∀ a b c, cmp a b = Ordering.lt → cmp b c = Ordering.lt → cmp a c = Ordering.lt)
    (hel : ∀ a b c, cmp a b = Ordering.eq → cmp b c = Ordering.lt → cmp a c = Ordering.lt)
    (hle : ∀ a b c, cmp a b = Ordering.lt → cmp b c = Ordering.eq → cmp a c = Ordering.lt)
    (hee : ∀ a b c, cmp a b = Ordering.eq → cmp b c = Ordering.eq → cmp a c = Ordering.eq) :
    ∀ x y z : List α,
      (listCmp cmp x y = Ordering.lt → listCmp cmp y z = Ordering.lt →
        listCmp cmp x z = Ordering.lt) ∧
      (listCmp cmp x y = Ordering.eq → listCmp cmp y z = Ordering.lt →
        listCmp cmp x z = Ordering.lt) ∧
      (listCmp cmp x y = Ordering.lt → listCmp cmp y z = Ordering.eq →
        listCmp cmp x z = Ordering.lt) ∧
      (listCmp cmp x y = Ordering.eq → listCmp cmp y z = Ordering.eq →
        listCmp cmp x z = Ordering.eq)
  | [], [], [] => by
    refine ⟨?_, ?_, ?_, ?_⟩ <;> intro h₁ h₂
    · cases h₁
    · cases h₂
    · cases h₁
    · rfl
  | [], [], _ :: _ => by
    refine ⟨?_, ?_, ?_, ?_⟩ <;> intro h₁ h₂
    · cases h₁
    · rfl
    · cases h₂
    · cases h₂
  | [], _ :: _, [] => by
    refine ⟨?_, ?_, ?_, ?_⟩ <;> intro h₁ h₂
    · cases h₂
    · cases h₁
    · cases h₂
    · cases h₁
  | [], _ :: _, _ :: _ => by
    refine ⟨?_, ?_, ?_, ?_⟩ <;> intro h₁ h₂
    · rfl
    · cases h₁
    · rfl
    · cases h₁
  | _ :: _, [], [] => by
    refine ⟨?_, ?_, ?_, ?_⟩ <;> intro h₁ h₂
    · cases h₁
    · cases h₁
    · cases h₁
    · cases h₁
  | _ :: _, [], _ :: _ => by
    refine ⟨?_, ?_, ?_, ?_⟩ <;> intro h₁ h₂
    · cases h₁
    · cases h₁
    · cases h₁
    · cases h₁
  | _ :: _, _ :: _, [] => by
    refine ⟨?_, ?_, ?_, ?_⟩ <;> intro h₁ h₂
    · cases h₂
    · cases h₂
    · cases h₂
    · cases h₂
  | a :: as, b :: bs, c :: cs => by
    have ih := listCmp_laws cmp hll hel hle hee as bs cs
    refine ⟨?_, ?_, ?_, ?_⟩ <;> intro h₁ h₂ <;>
      simp only [listCmp, ordThen_eq_lt, ordThen_eq_eq] at h₁ h₂ ⊢
    · rcases h₁ with h₁ | ⟨h₁e, h₁l⟩
      · rcases h₂ with h₂ | ⟨h₂e, h₂l⟩
        · exact Or.inl (hll a b c h₁ h₂)
        · exact Or.inl (hle a b c h₁ h₂e)
      · rcases h₂ with h₂ | ⟨h₂e, h₂l⟩
        · exact Or.inl (hel a b c h₁e h₂)
        · exact Or.inr ⟨hee a b c h₁e h₂e, ih.1 h₁l h₂l⟩
    · rcases h₂ with h₂ | ⟨h₂e, h₂l⟩
      · exact Or.inl (hel a b c h₁.1 h₂)
      · exact Or.inr ⟨hee a b c h₁.1 h₂e, ih.2.1 h₁.2 h₂l⟩
    · rcases h₁ with h₁ | ⟨h₁e, h₁l⟩
      · exact Or.inl (hle a b c h₁ h₂.1)
      · exact Or.inr ⟨hee a b c h₁e h₂.1, ih.2.2.1 h₁l h₂.2⟩
    · exact ⟨hee a b c h₁.1 h₂.1, ih.2.2.2 h₁.2 h₂.2⟩

theorem localeCompareEn_swap (a b : String) : localeCompareEn a b = (localeCompareEn b a).swap :=
  listCmp_swap keyCmp keyCmp_swap _ _

theorem localeLe_total (a b : String) : localeLe a b || localeLe b a := by
  simp only [localeLe, Bool.or_eq_true, decide_eq_true_eq]
  rw [localeCompareEn_swap a b]
  cases localeCompareEn b a <;> simp [Ordering.swap]

theorem localeLe_trans {a b c : String} (h₁ : localeLe a b) (h₂ : localeLe b c) :
    localeLe a c := by
  have laws := listCmp_laws keyCmp keyCmp_laws.1 keyCmp_laws.2.1 keyCmp_laws.2.2.1
    keyCmp_laws.2.2.2 (natKey a.data) (natKey b.data) (natKey c.data)
  simp only [localeLe, decide_eq_true_eq] at h₁ h₂ ⊢
  unfold localeCompareEn at h₁ h₂ ⊢
  intro hac
  rcases hab : listCmp keyCmp (natKey a.data) (natKey b.data) with _ | _ | _
  · rcases hbc : listCmp keyCmp (natKey b.data) (natKey c.data) with _ | _ | _
    · rw [laws.1 hab hbc] at hac; cases hac
    · rw [laws.2.2.1 hab hbc] at hac; cases hac
    · exact h₂ hbc
  · rcases hbc : listCmp keyCmp (natKey b.data) (natKey c.data) with _ | _ | _
    · rw [laws.2.1 hab hbc] at hac; cases hac
    · rw [laws.2.2.2 hab hbc] at hac; cases hac
    · exact h₂ hbc
  · exact h₁ hab

theorem sortPaths_sorted (l : List String) : (sortPaths l).Pairwise (fun a b => localeLe a b) :=
  @List.sorted_mergeSort String localeLe (fun _ _ _ h₁ h₂ => localeLe_trans h₁ h₂)
    (fun a b => localeLe_total a b) l

theorem sortPaths_perm (l : List String) : (sortPaths l).Perm l := List.mergeSort_perm l _

theorem sorted_perm_eq_of_no_ties :
    ∀ {l₁ l₂ : List String}, l₁.Perm l₂ →
      l₁.Pairwise (fun a b => localeLe a b = true) →
      l₂.Pairwise (fun a b => localeLe a b = true) →
      (∀ a, a ∈ l₁ → ∀ b, b ∈ l₁ → localeLe a b = true → localeLe b a = true → a = b) →
      l₁ = l₂ := by
  intro l₁
  induction l₁ with
  | nil =>
    intro l₂ hp _ _ _
    exact List.Perm.nil_eq hp
  | cons a t₁ ih =>
    intro l₂ hp hs₁ hs₂ hnt
    match l₂ with
    | [] => exact absurd hp.symm (by simp)
    | b :: t₂ =>
      by_cases hab : a = b
      · subst hab
        have ht := hp.cons_inv
        have := ih ht (List.Pairwise.of_cons hs₁) (List.Pairwise.of_cons hs₂)
          (fun x hx y hy hxy hyx =>
            hnt x (List.mem_cons_of_mem _ hx) y (List.mem_cons_of_mem _ hy) hxy hyx)
        rw [this]
      · exfalso
        have hbmem : b ∈ a :: t₁ := hp.symm.subset (List.mem_cons_self _ _)
        have hamem : a ∈ b :: t₂ := hp.subset (List.mem_cons_self _ _)
        have hbt : b ∈ t₁ := by
          rcases List.mem_cons.mp hbmem with h | h
          · exact absurd h.symm hab
          · exact h
        have hat : a ∈ t₂ := by
          rcases List.mem_cons.mp hamem with h | h
          · exact absurd h hab
          · exact h
        have h₁ : localeLe a b = true := List.rel_of_pairwise_cons hs₁ hbt
        have h₂ : localeLe b a = true := List.rel_of_pairwise_cons hs₂ hat
        exact hab (hnt a (List.mem_cons_self _ _) b (List.mem_cons_of_mem _ hbt) h₁ h₂)

theorem sortPaths_eq_of_perm_of_no_ties {l₁ l₂ : List String} (h : l₁.Perm l₂)
    (hnt : ∀ a, a ∈ l₁ → ∀ b, b ∈ l₁ → localeLe a b = true → localeLe b a = true → a = b) :
    sortPaths l₁ = sortPaths l₂ :=
  sorted_perm_eq_of_no_ties
    ((sortPaths_perm l₁).trans (h.trans (sortPaths_perm l₂).symm))
    (sortPaths_sorted l₁) (sortPaths_sorted l₂)
    (fun a ha b hb hab hba =>
      hnt a ((sortPaths_perm l₁).subset ha) b ((sortPaths_perm l₁).subset hb) hab hba)

theorem scanNonPrintable_eq_none {tn : Bool} {l : List Nat} :
    scanNonPrintable tn l = none ↔ (tn = true ∧ 0 ∈ l) := by
  induction l with
  | nil => simp [scanNonPrintable]
  | cons b rest ih =>
    by_cases h : tn && b == 0
    · simp only [scanNonPrintable, if_pos h]
      simp only [Bool.and_eq_true, beq_iff_eq] at h
      simp [h.1, h.2]
    · simp only [scanNonPrintable, if_neg h]
      simp only [Bool.and_eq_true, beq_iff_eq] at h
      rcases hs : scanNonPrintable tn rest with _ | n
      · rw [hs] at ih
        simp only [true_iff] at ih
        simp [ih.1, ih.2]
      · rw [hs] at ih
        simp only [List.mem_cons]
        constructor
        · intro hc; cases hc
        · rintro ⟨htn, h0 | h0⟩
          · exact absurd ⟨htn, h0.symm⟩ h
          · exact absurd (ih.mpr ⟨htn, h0⟩) (by simp)

theorem scanNonPrintable_eq_some {tn : Bool} {l : List Nat}
    (h : ¬(tn = true ∧ 0 ∈ l)) :
    scanNonPrintable tn l = some (l.filter (fun b => !isPrintableByte b)).length := by
  induction l with
  | nil => simp [scanNonPrintable]
  | cons b rest ih =>
    have hb : ¬(tn && b == 0) = true := by
      simp only [Bool.and_eq_true, beq_iff_eq]
      rintro ⟨htn, hb0⟩
      exact h ⟨htn, by simp [hb0]⟩
    have hrest : ¬(tn = true ∧ 0 ∈ rest) := by
      rintro ⟨htn, h0⟩
      exact h ⟨htn, by simp [h0]⟩
    simp only [scanNonPrintable, if_neg hb, ih hrest]
    by_cases hp : isPrintableByte b
    · simp [hp, List.filter]
    · simp [hp, List.filter]
      omega

/-- C6: `isLikelyBinary` on an empty sample returns false; with `treatNulAsBinary`
enabled (the default) it returns true whenever any byte equals 0x00; otherwise it
returns true iff the fraction of bytes outside printable ASCII `[0x20, 0x7e]` and
outside `{TAB, LF, CR}` strictly exceeds `nonPrintableThreshold` (default 0.3). -/
theorem isLikelyBinary_policy (opts : BinaryHeuristicOptions) (sample : List Nat) :
    isLikelyBinary [] opts = false ∧
    defaultBinaryHeuristicOptions.treatNulAsBinary = true ∧
    defaultBinaryHeuristicOptions.nonPrintableThreshold = 3 / 10 ∧
    (opts.treatNulAsBinary = true → 0 ∈ sample → isLikelyBinary sample opts = true) ∧
    (sample ≠ [] → ¬(opts.treatNulAsBinary = true ∧ 0 ∈ sample) →
      (isLikelyBinary sample opts = true ↔
        opts.nonPrintableThreshold <
          ((sample.filter (fun b => !isPrintableByte b)).length : ℚ) / (sample.length : ℚ))) := by
  refine ⟨rfl, rfl, rfl, ?_, ?_⟩
  · intro htn hmem
    have hne : sample ≠ [] := by rintro rfl; cases hmem
    have hlen : (sample.length == 0) = false := by
      simp [List.length_eq_zero, hne]
    simp only [isLikelyBinary, hlen, Bool.false_eq_true, if_false]
    rw [scanNonPrintable_eq_none.mpr ⟨htn, hmem⟩]
  · intro hne hnot
    have hlen : (sample.length == 0) = false := by
      simp [List.length_eq_zero, hne]
    simp only [isLikelyBinary, hlen, Bool.false_eq_true, if_false]
    rw [scanNonPrintable_eq_some hnot]
    simp [gt_iff_lt]

/-- Witness for `isLikelyBinary_policy` at concrete samples. -/
theorem isLikelyBinary_policy_witness :
    isLikelyBinary [0] defaultBinaryHeuristicOptions = true ∧
    isLikelyBinary [200] defaultBinaryHeuristicOptions = true := by
  constructor
  · exact (isLikelyBinary_policy defaultBinaryHeuristicOptions [0]).2.2.2.1 rfl (by decide)
  · refine ((isLikelyBinary_policy defaultBinaryHeuristicOptions [200]).2.2.2.2
      (by decide) (by decide)).mpr ?_
    have hfl : ([200].filter (fun b => !isPrintableByte b)).length = 1 := by decide
    rw [hfl]
    norm_num [defaultBinaryHeuristicOptions]

/-- C5: on a file whose stat size strictly exceeds `maxBytes` (default 204800),
`classifyOne` decides `omit/SIZE_OVER_LIMIT` independently of the file's content:
the result is the same for every `readHead` outcome, including a failing read, so
no head sample is consulted. -/
theorem classifyOne_size_over_limit (maxBytes sizeBytes : Nat) (relativePath : String)
    (headResult : Except Unit (List Nat)) (binaryCheck : List Nat → Bool)
    (h : sizeBytes > maxBytes) :
    classifyOne maxBytes relativePath ⟨Except.ok sizeBytes, headResult⟩ binaryCheck =
      Except.ok ⟨relativePath, ⟨FileCategory.omit, some OmitReason.SIZE_OVER_LIMIT, none⟩⟩ ∧
    DEFAULT_MAX_BYTES = 204800 := by
  refine ⟨?_, rfl⟩
  simp [classifyOne, Bind.bind, Except.bind, Pure.pure, Except.pure, h]

/-- Witness for `classifyOne_size_over_limit`: a 204801-byte file under the default
limit, with a failing head read. -/
theorem classifyOne_size_over_limit_witness :
    204801 > DEFAULT_MAX_BYTES ∧
    classifyOne DEFAULT_MAX_BYTES "big.bin" ⟨Except.ok 204801, Except.error ()⟩ (fun _ => true) =
      Except.ok ⟨"big.bin", ⟨FileCategory.omit, some OmitReason.SIZE_OVER_LIMIT, none⟩⟩ :=
  ⟨by decide,
    (classifyOne_size_over_limit DEFAULT_MAX_BYTES 204801 "big.bin" (Except.error ())
      (fun _ => true) (by decide)).1⟩

/-- C7: for a file that passes the size and binary stages, the naming stage is total
and never omits: it decides `config` when the lowered path is under a known config
directory or its basename is in the config table, otherwise `code` with a language
hint from the extension; `.github/workflows/ci.yml` is `config` and `src/main.ts`
is `code` with hint `ts`. -/
theorem classifyByName_naming_stage (relativePath : String) :
    (classifyByName relativePath).category ≠ FileCategory.omit ∧
    ((isUnderKnownConfigDir (lowerStr relativePath) = true ∨
        isKnownConfigByBasename (basenameOfLower (lowerStr relativePath)) = true) →
      (classifyByName relativePath).category = FileCategory.config) ∧
    (isUnderKnownConfigDir (lowerStr relativePath) = false →
      isKnownConfigByBasename (basenameOfLower (lowerStr relativePath)) = false →
      classifyByName relativePath =
        ⟨FileCategory.code, none, extToLangHint (lowerStr relativePath)⟩) ∧
    (∀ (maxBytes sizeBytes : Nat) (head : List Nat) (binaryCheck : List Nat → Bool),
      sizeBytes ≤ maxBytes → binaryCheck head = false →
      classifyOne maxBytes relativePath ⟨Except.ok sizeBytes, Except.ok head⟩ binaryCheck =
        Except.ok ⟨relativePath, classifyByName relativePath⟩) ∧
    (classifyByName ".github/workflows/ci.yml").category = FileCategory.config ∧
    classifyByName "src/main.ts" = ⟨FileCategory.code, none, some "ts"⟩ := by
  refine ⟨?_, ?_, ?_, ?_, by decide, by decide⟩
  · unfold classifyByName
    by_cases h₁ : isUnderKnownConfigDir (lowerStr relativePath)
    · simp [h₁]
    · by_cases h₂ : isKnownConfigByBasename (basenameOfLower (lowerStr relativePath))
      · simp [h₁, h₂]
      · simp [h₁, h₂]
  · intro h
    unfold classifyByName
    rcases h with h | h
    · simp [h]
    · by_cases h₁ : isUnderKnownConfigDir (lowerStr relativePath)
      · simp [h₁]
      · simp [h₁, h]
  · intro h₁ h₂
    unfold classifyByName
    simp [h₁, h₂]
  · intro maxBytes sizeBytes head binaryCheck hsize hbc
    have hgt : ¬ sizeBytes > maxBytes := by omega
    simp [classifyOne, Bind.bind, Except.bind, Pure.pure, Except.pure, hgt, hbc]

/-- Witness for `classifyByName_naming_stage` at `src/main.ts`. -/
theorem classifyByName_naming_stage_witness :
    classifyByName "src/main.ts" = ⟨FileCategory.code, none, some "ts"⟩ ∧
    classifyOne 100 "src/main.ts" ⟨Except.ok 10, Except.ok [104, 105]⟩ (fun _ => false) =
      Except.ok ⟨"src/main.ts", classifyByName "src/main.ts"⟩ := by
  constructor
  · have h := (classifyByName_naming_stage "src/main.ts").2.2.1 (by decide) (by decide)
    rw [h]; decide
  · exact (classifyByName_naming_stage "src/main.ts").2.2.2.1 100 10 [104, 105]
      (fun _ => false) (by decide) rfl

/-- C10: the table `CONFIG_BASENAMES` stores `Dockerfile` with a capital D while the
lookup key is the lowercased basename, so a path whose basename is `Dockerfile` in
any casing (and that is not under a known config directory) classifies as `code`. -/
theorem dockerfile_classifies_as_code (relativePath : String)
    (hbase : basenameOfLower (lowerStr relativePath) = "dockerfile")
    (hdir : isUnderKnownConfigDir (lowerStr relativePath) = false) :
    (classifyByName relativePath).category = FileCategory.code ∧
    CONFIG_BASENAMES.contains "Dockerfile" = true ∧
    isKnownConfigByBasename "dockerfile" = false := by
  refine ⟨?_, by decide, by decide⟩
  unfold classifyByName
  simp only [hdir, Bool.false_eq_true, if_false]
  rw [hbase]
  have hdk : isKnownConfigByBasename "dockerfile" = false := by decide
  simp [hdk]

/-- Witness for `dockerfile_classifies_as_code` at the path `Dockerfile`. -/
theorem dockerfile_classifies_as_code_witness :
    basenameOfLower (lowerStr "Dockerfile") = "dockerfile" ∧
    (classifyByName "Dockerfile").category = FileCategory.code :=
  ⟨by decide, (dockerfile_classifies_as_code "Dockerfile" (by decide) (by decide)).1⟩

theorem walkChildren_cons (exD exF : List String) (p : List String)
    (e : String × Bool × FSTree) (rest : List (String × Bool × FSTree)) :
    walkChildren exD exF p (e :: rest) =
      match childContrib exD exF p e with
      | Except.error er => Except.error er
      | Except.ok sub =>
        match walkChildren exD exF p rest with
        | Except.error er => Except.error er
        | Except.ok r => Except.ok (sub ++ r) := by
  rcases e with ⟨name, k, node⟩
  cases k with
  | false =>
    cases node with
    | file =>
      rcases hr : walkChildren exD exF p rest with er | r <;>
        simp [walkChildren, childContrib, hr]
    | symlink =>
      rcases hr : walkChildren exD exF p rest with er | r <;>
        simp [walkChildren, childContrib, hr]
    | special =>
      rcases hr : walkChildren exD exF p rest with er | r <;>
        simp [walkChildren, childContrib, hr]
    | dir op2 r2 cs2 =>
      by_cases hex : lowerStr name ∈ exD
      · rcases hr : walkChildren exD exF p rest with er | r <;>
          simp [walkChildren, childContrib, hex, hr]
      · rcases hs : walkSegs exD exF (p ++ [name]) (FSTree.dir op2 r2 cs2) with er | sub
        · simp [walkChildren, childContrib, hex, hs]
        · rcases hr : walkChildren exD exF p rest with er | r <;>
            simp [walkChildren, childContrib, hex, hs, hr]
  | true =>
    cases node with
    | file =>
      rcases hr : walkChildren exD exF p rest with er | r <;>
        simp [walkChildren, childContrib, hr]
    | symlink =>
      rcases hr : walkChildren exD exF p rest with er | r <;>
        simp [walkChildren, childContrib, hr]
    | special =>
      rcases hr : walkChildren exD exF p rest with er | r <;>
        simp [walkChildren, childContrib, hr]
    | dir op2 r2 cs2 =>
      by_cases hex : lowerStr name ∈ exD
      · rcases hr : walkChildren exD exF p rest with er | r <;>
          simp [walkChildren, childContrib, hex, hr]
      · rcases hs : walkSegs exD exF (p ++ [name]) (FSTree.dir op2 r2 cs2) with er | sub
        · simp [walkChildren, childContrib, hex, hs]
        · rcases hr : walkChildren exD exF p rest with er | r <;>
            simp [walkChildren, childContrib, hex, hs, hr]

theorem walkChildren_append (exD exF : List String) (p : List String)
    (l₁ l₂ : List (String × Bool × FSTree)) :
    walkChildren exD exF p (l₁ ++ l₂) =
      match walkChildren exD exF p l₁ with
      | Except.error er => Except.error er
      | Except.ok s =>
        match walkChildren exD exF p l₂ with
        | Except.error er => Except.error er
        | Except.ok r => Except.ok (s ++ r) := by
  induction l₁ with
  | nil =>
    rcases h₂ : walkChildren exD exF p l₂ with er | r <;> simp [walkChildren, h₂]
  | cons e t ih =>
    rw [List.cons_append, walkChildren_cons, walkChildren_cons, ih]
    rcases hc : childContrib exD exF p e with er | sub
    · rfl
    · rcases h₁ : walkChildren exD exF p t with er | s
      · rfl
      · rcases h₂ : walkChildren exD exF p l₂ with er | r
        · rfl
        · simp

theorem walkChildren_ok_mem {exD exF : List String} {p : List String}
    {cs : List (String × Bool × FSTree)} {l : List (List String)} {segs : List String}
    (h : walkChildren exD exF p cs = Except.ok l) (hmem : segs ∈ l) :
    ∃ e, e ∈ cs ∧ ∃ sub, childContrib exD exF p e = Except.ok sub ∧ segs ∈ sub := by
  induction cs generalizing l with
  | nil =>
    have h' : Except.ok ([] : List (List String)) = Except.ok l := h
    cases h'
    cases hmem
  | cons e t ih =>
    rw [walkChildren_cons] at h
    rcases hc : childContrib exD exF p e with er | sub <;> rw [hc] at h
    · cases h
    · rcases hr : walkChildren exD exF p t with er | r <;> rw [hr] at h
      · cases h
      · have h' : Except.ok (sub ++ r) = Except.ok l := h
        cases h'
        rcases List.mem_append.mp hmem with hm | hm
        · exact ⟨e, List.mem_cons_self _ _, sub, hc, hm⟩
        · obtain ⟨e', he', sub', hc', hm'⟩ := ih hr hm
          exact ⟨e', List.mem_cons_of_mem _ he', sub', hc', hm'⟩

theorem wellFormedChildren_mem {cs : List (String × Bool × FSTree)}
    {e : String × Bool × FSTree} (hwf : wellFormedChildren cs = true) (hmem : e ∈ cs) :
    wellFormed e.2.2 = true := by
  induction cs with
  | nil => cases hmem
  | cons c rest ih =>
    simp only [wellFormedChildren, Bool.and_eq_true] at hwf
    rcases List.mem_cons.mp hmem with h | h
    · subst h; exact hwf.1
    · exact ih hwf.2 h

theorem readSafeChildren_mem {cs : List (String × Bool × FSTree)}
    {e : String × Bool × FSTree} (hrs : readSafeChildren cs = true) (hmem : e ∈ cs) :
    readSafe e.2.2 = true := by
  induction cs with
  | nil => cases hmem
  | cons c rest ih =>
    simp only [readSafeChildren, Bool.and_eq_true] at hrs
    rcases List.mem_cons.mp hmem with h | h
    · subst h; exact hrs.1
    · exact ih hrs.2 h

theorem find?_eq_of_mem_nodup {cs : List (String × Bool × FSTree)}
    {e : String × Bool × FSTree} (hnd : (cs.map (fun x => x.1)).Nodup) (hmem : e ∈ cs) :
    cs.find? (fun x => x.1 == e.1) = some e := by
  induction cs with
  | nil => cases hmem
  | cons c rest ih =>
    rcases List.mem_cons.mp hmem with h | h
    · subst h
      simp [List.find?]
    · have hne : c.1 ≠ e.1 := by
        intro heq
        have : e.1 ∈ rest.map (fun x => x.1) := List.mem_map_of_mem _ h
        rw [← heq] at this
        exact (List.nodup_cons.mp hnd).1 this
      have hne' : (c.1 == e.1) = false := by simpa using hne
      have hrest := ih (List.nodup_cons.mp hnd).2 h
      simp [List.find?, hne', hrest]

theorem walkSegs_readSafe_ok_aux (exD exF : List String) :
    ∀ n t p, sizeOf t ≤ n → readSafe t = true →
      ∃ l, walkSegs exD exF p t = Except.ok l := by
  intro n
  induction n with
  | zero =>
    intro t p hsz _
    match t with
    | FSTree.file => exact ⟨[], rfl⟩
    | FSTree.symlink => exact ⟨[], rfl⟩
    | FSTree.special => exact ⟨[], rfl⟩
    | FSTree.dir op r cs => simp [FSTree.dir.sizeOf_spec] at hsz
  | succ n ih =>
    intro t p hsz hrs
    match t with
    | FSTree.file => exact ⟨[], rfl⟩
    | FSTree.symlink => exact ⟨[], rfl⟩
    | FSTree.special => exact ⟨[], rfl⟩
    | FSTree.dir false r cs => exact ⟨[], rfl⟩
    | FSTree.dir true r cs =>
      simp only [readSafe, Bool.and_eq_true] at hrs
      obtain ⟨rfl, hrsc⟩ : r = true ∧ readSafeChildren cs = true := hrs
      have hbound : ∀ e, e ∈ cs → sizeOf e.2.2 ≤ n := by
        intro e hemem
        have hlt := List.sizeOf_lt_of_mem hemem
        rcases e with ⟨nm, k, nd⟩
        simp only [Prod.mk.sizeOf_spec] at hlt ⊢
        simp only [FSTree.dir.sizeOf_spec] at hsz
        omega
      have inner : ∀ cs2 : List (String × Bool × FSTree),
          (∀ e, e ∈ cs2 → sizeOf e.2.2 ≤ n) → readSafeChildren cs2 = true →
          ∃ l, walkChildren exD exF p cs2 = Except.ok l := by
        intro cs2
        induction cs2 with
        | nil => intro _ _; exact ⟨[], rfl⟩
        | cons e t2 ih2 =>
          intro hb hrs2
          simp only [readSafeChildren, Bool.and_eq_true] at hrs2
          have hcontrib : ∃ sub, childContrib exD exF p e = Except.ok sub := by
            rcases e with ⟨nm, k, nd⟩
            match nd with
            | FSTree.file => exact ⟨_, rfl⟩
            | FSTree.symlink => exact ⟨[], rfl⟩
            | FSTree.special => exact ⟨[], rfl⟩
            | FSTree.dir op2 r2 cs2' =>
              by_cases hex : lowerStr nm ∈ exD
              · exact ⟨[], by simp [childContrib, hex]⟩
              · have hsz2 : sizeOf (FSTree.dir op2 r2 cs2') ≤ n :=
                  hb _ (List.mem_cons_self _ _)
                have hrs3 : readSafe (FSTree.dir op2 r2 cs2') = true := hrs2.1
                obtain ⟨l2, hl2⟩ := ih (FSTree.dir op2 r2 cs2') (p ++ [nm]) hsz2 hrs3
                exact ⟨l2, by simp [childContrib, hex, hl2]⟩
          obtain ⟨sub, hsub⟩ := hcontrib
          obtain ⟨r2, hr2⟩ := ih2 (fun e' he' => hb e' (List.mem_cons_of_mem _ he')) hrs2.2
          refine ⟨sub ++ r2, ?_⟩
          rw [walkChildren_cons, hsub, hr2]
      obtain ⟨l, hl⟩ := inner cs hbound hrsc
      exact ⟨l, by simp [walkSegs, hl]⟩

theorem walkSegs_resolves_aux (exD exF : List String) :
    ∀ n t p segs l, sizeOf t ≤ n → wellFormed t = true →
      walkSegs exD exF p t = Except.ok l → segs ∈ l →
      ∃ rest, segs = p ++ rest ∧ lookupNode t rest = some FSTree.file := by
  intro n
  induction n with
  | zero =>
    intro t p segs l hsz _ _ _
    exfalso
    cases t <;> simp [FSTree.dir.sizeOf_spec] at hsz <;> omega
  | succ n ih =>
    intro t p segs l hsz hwf hok hmem
    match t with
    | FSTree.file =>
      have h' : Except.ok ([] : List (List String)) = Except.ok l := hok
      cases h'; cases hmem
    | FSTree.symlink =>
      have h' : Except.ok ([] : List (List String)) = Except.ok l := hok
      cases h'; cases hmem
    | FSTree.special =>
      have h' : Except.ok ([] : List (List String)) = Except.ok l := hok
      cases h'; cases hmem
    | FSTree.dir false r cs =>
      have h' : Except.ok ([] : List (List String)) = Except.ok l := hok
      cases h'; cases hmem
    | FSTree.dir true false cs => cases hok
    | FSTree.dir true true cs =>
      have hok' : walkChildren exD exF p cs = Except.ok l := hok
      obtain ⟨e, hemem, sub, hcon, hsmem⟩ := walkChildren_ok_mem hok' hmem
      simp only [wellFormed, Bool.and_eq_true, decide_eq_true_eq] at hwf
      rcases e with ⟨name, k, node⟩
      match node with
      | FSTree.symlink =>
        have h' : Except.ok ([] : List (List String)) = Except.ok sub := hcon
        cases h'; cases hsmem
      | FSTree.special =>
        have h' : Except.ok ([] : List (List String)) = Except.ok sub := hcon
        cases h'; cases hsmem
      | FSTree.file =>
        simp only [childContrib, Except.ok.injEq] at hcon
        subst hcon
        by_cases hex : exF.contains (lowerStr name)
        · rw [if_pos hex] at hsmem; cases hsmem
        · rw [if_neg hex] at hsmem
          rcases List.mem_singleton.mp hsmem with rfl
          refine ⟨[name], rfl, ?_⟩
          rw [lookupNode]
          rw [find?_eq_of_mem_nodup hwf.1 hemem]
          rfl
      | FSTree.dir op2 r2 cs2 =>
        simp only [childContrib] at hcon
        by_cases hex : exD.contains (lowerStr name)
        · rw [if_pos hex] at hcon
          have h' : ([] : List (List String)) = sub := by
            cases hcon; rfl
          rw [← h'] at hsmem; cases hsmem
        · rw [if_neg hex] at hcon
          have hsz2 : sizeOf (FSTree.dir op2 r2 cs2) ≤ n := by
            have hlt := List.sizeOf_lt_of_mem hemem
            simp only [Prod.mk.sizeOf_spec, FSTree.dir.sizeOf_spec] at hlt
            simp only [FSTree.dir.sizeOf_spec] at hsz ⊢
            omega
          have hwf2 : wellFormed (FSTree.dir op2 r2 cs2) = true :=
            wellFormedChildren_mem hwf.2 hemem
          rcases ih (FSTree.dir op2 r2 cs2) (p ++ [name]) segs sub hsz2 hwf2 hcon hsmem with
            ⟨rest, hr, hl⟩
          refine ⟨name :: rest, by simp [hr], ?_⟩
          rw [lookupNode]
          rw [find?_eq_of_mem_nodup hwf.1 hemem]
          exact hl

theorem walkSegs_resolves (exD exF : List String) (t : FSTree) (p segs : List String)
    (l : List (List String)) (hwf : wellFormed t = true)
    (hok : walkSegs exD exF p t = Except.ok l) (hmem : segs ∈ l) :
    ∃ rest, segs = p ++ rest ∧ lookupNode t rest = some FSTree.file :=
  walkSegs_resolves_aux exD exF (sizeOf t) t p segs l (Nat.le_refl _) hwf hok hmem

/-- C8 (amended): `discover` fails with `RootIsSymlink` on a symlink root and with
`RootNotDirectory` on any root that does not resolve to a directory, both decided
before traversal begins; after that validation neither root error can occur any
more, and the only other error that can propagate out of `discover` is an uncaught
failure of reading (or closing) an opened directory during traversal; whenever
every opened directory enumerates successfully, `discover` returns `ok` for every
directory root. -/
theorem discover_root_validation (exD exF : List String) (t : FSTree) :
    discover exD exF FSTree.symlink = Except.error DiscoverError.rootIsSymlink ∧
    discover exD exF FSTree.file = Except.error DiscoverError.rootNotDirectory ∧
    discover exD exF FSTree.special = Except.error DiscoverError.rootNotDirectory ∧
    ((discover exD exF t).isOk = true ∨ discover exD exF t = Except.error DiscoverError.readFailure
      ↔ ∃ op r cs, t = FSTree.dir op r cs) ∧
    (∀ op r cs,
      discover exD exF (FSTree.dir op r cs) ≠ Except.error DiscoverError.rootIsSymlink ∧
      discover exD exF (FSTree.dir op r cs) ≠ Except.error DiscoverError.rootNotDirectory) ∧
    (∀ op r cs, readSafe (FSTree.dir op r cs) = true →
      (discover exD exF (FSTree.dir op r cs)).isOk = true) := by
  have hdir : ∀ op r cs,
      (discover exD exF (FSTree.dir op r cs)).isOk = true ∨
      discover exD exF (FSTree.dir op r cs) = Except.error DiscoverError.readFailure := by
    intro op r cs
    rcases hw : walkSegs exD exF [] (FSTree.dir op r cs) with er | l
    · right; simp [discover, hw]
    · left; simp [discover, hw, Except.isOk, Except.toBool]
  refine ⟨rfl, rfl, rfl, ?_, ?_, ?_⟩
  · constructor
    · intro h
      cases t with
      | file =>
        rcases h with h | h
        · cases h
        · cases h
      | symlink =>
        rcases h with h | h
        · cases h
        · cases h
      | special =>
        rcases h with h | h
        · cases h
        · cases h
      | dir op r cs => exact ⟨op, r, cs, rfl⟩
    · rintro ⟨op, r, cs, rfl⟩
      exact hdir op r cs
  · intro op r cs
    rcases hw : walkSegs exD exF [] (FSTree.dir op r cs) with er | l
    · constructor
      · simp [discover, hw]
      · simp [discover, hw]
    · constructor
      · simp [discover, hw]
      · simp [discover, hw]
  · intro op r cs hrs
    obtain ⟨l, hl⟩ :=
      walkSegs_readSafe_ok_aux exD exF (sizeOf (FSTree.dir op r cs)) (FSTree.dir op r cs) []
        (Nat.le_refl _) hrs
    simp [discover, hl, Except.isOk, Except.toBool]

/-- Witness for `discover_root_validation`: a read-safe one-file tree discovers
successfully. -/
theorem discover_root_validation_witness :
    readSafe (FSTree.dir true true [("a", true, FSTree.file)]) = true ∧
    (discover [] [] (FSTree.dir true true [("a", true, FSTree.file)])).isOk = true :=
  ⟨by decide,
    (discover_root_validation [] [] (FSTree.dir true true [("a", true, FSTree.file)])).2.2.2.2.2
      true true [("a", true, FSTree.file)] (by decide)⟩

/-- Counterexample to C8 as stated: the entry-reading loop of the walker is
`try`/`finally` with no `catch`, so a directory that opens but whose enumeration
fails propagates an error out of `discover` even though root validation passed —
root validation failures are not the only errors that escape. -/
theorem discover_root_validation_counterexample :
    discover [] [] (FSTree.dir true true [("d", true, FSTree.dir true false [])]) =
      Except.error DiscoverError.readFailure ∧
    (discover [] [] (FSTree.dir true true [("d", true, FSTree.dir true false [])])).isOk
      = false ∧
    discover [] [] (FSTree.dir true true [("d", true, FSTree.dir true false [])]) ≠
      Except.error DiscoverError.rootIsSymlink ∧
    discover [] [] (FSTree.dir true true [("d", true, FSTree.dir true false [])]) ≠
      Except.error DiscoverError.rootNotDirectory := by
  refine ⟨rfl, rfl, ?_, ?_⟩
  · intro h; cases h
  · intro h; cases h

/-- C9: a directory that cannot be opened contributes no entries at all and raises
nothing (`ok []`); the contents and the read flag of an unopenable subtree are
irrelevant to the traversal; removing such a child entirely leaves the traversal
and the whole `discover` result unchanged, so the remaining entries are processed
normally. -/
theorem unopenable_subtree_skipped (exD exF : List String) (p : List String)
    (pre post : List (String × Bool × FSTree)) (name : String) (k r r' : Bool)
    (cs cs' : List (String × Bool × FSTree)) :
    walkSegs exD exF p (FSTree.dir false r cs) = Except.ok [] ∧
    walkSegs exD exF p (FSTree.dir true true (pre ++ (name, k, FSTree.dir false r cs) :: post)) =
      walkSegs exD exF p
        (FSTree.dir true true (pre ++ (name, k, FSTree.dir false r' cs') :: post)) ∧
    walkSegs exD exF p (FSTree.dir true true (pre ++ (name, k, FSTree.dir false r cs) :: post)) =
      walkSegs exD exF p (FSTree.dir true true (pre ++ post)) ∧
    discover exD exF (FSTree.dir true true (pre ++ (name, k, FSTree.dir false r cs) :: post)) =
      discover exD exF (FSTree.dir true true (pre ++ post)) := by
  have hskip : ∀ (p0 : List String) (r0 : Bool) (cs0 : List (String × Bool × FSTree)),
      walkChildren exD exF p0 (pre ++ (name, k, FSTree.dir false r0 cs0) :: post) =
        walkChildren exD exF p0 (pre ++ post) := by
    intro p0 r0 cs0
    rw [walkChildren_append, walkChildren_append, walkChildren_cons]
    have hcon : childContrib exD exF p0 (name, k, FSTree.dir false r0 cs0) = Except.ok [] := by
      by_cases hex : lowerStr name ∈ exD <;> simp [childContrib, hex, walkSegs]
    rw [hcon]
    rcases hpre : walkChildren exD exF p0 pre with er | spre
    · rfl
    · rcases hpost : walkChildren exD exF p0 post with er | spost <;> simp [hpost]
  have hwalk : ∀ (p0 : List String) (r0 : Bool) (cs0 : List (String × Bool × FSTree)),
      walkSegs exD exF p0
          (FSTree.dir true true (pre ++ (name, k, FSTree.dir false r0 cs0) :: post)) =
        walkSegs exD exF p0 (FSTree.dir true true (pre ++ post)) := by
    intro p0 r0 cs0
    show walkChildren exD exF p0 (pre ++ (name, k, FSTree.dir false r0 cs0) :: post) =
      walkChildren exD exF p0 (pre ++ post)
    exact hskip p0 r0 cs0
  refine ⟨rfl, ?_, hwalk p r cs, ?_⟩
  · rw [hwalk p r cs, hwalk p r' cs']
  · show (match walkSegs exD exF []
        (FSTree.dir true true (pre ++ (name, k, FSTree.dir false r cs) :: post)) with
      | Except.ok l => Except.ok (sortPaths (l.map joinSegs))
      | Except.error _ => Except.error DiscoverError.readFailure) =
      discover exD exF (FSTree.dir true true (pre ++ post))
    rw [hwalk [] r cs]
    rfl

/-- C4: on a well-formed tree (distinct names per directory, as on a real
filesystem) no entry returned by discovery resolves to a symbolic link: every
relative path emitted by a successful traversal resolves (via the modelled
`lstat`) to a regular file, both before the final sort and in the `ok` result of
`discover`. -/
theorem discovery_never_yields_symlink (exD exF : List String) (t : FSTree)
    (hwf : wellFormed t = true) :
    (∀ l, walkSegs exD exF [] t = Except.ok l → ∀ segs, segs ∈ l →
      lookupNode t segs = some FSTree.file ∧ lookupNode t segs ≠ some FSTree.symlink) ∧
    (∀ out, discover exD exF t = Except.ok out → ∀ pathStr, pathStr ∈ out →
      ∃ segs, pathStr = joinSegs segs ∧ lookupNode t segs = some FSTree.file) := by
  have hfirst : ∀ l, walkSegs exD exF [] t = Except.ok l → ∀ segs, segs ∈ l →
      lookupNode t segs = some FSTree.file := by
    intro l hok segs hmem
    rcases walkSegs_resolves exD exF t [] segs l hwf hok hmem with ⟨rest, hr, hl⟩
    simpa [hr] using hl
  refine ⟨?_, ?_⟩
  · intro l hok segs hmem
    refine ⟨hfirst l hok segs hmem, ?_⟩
    rw [hfirst l hok segs hmem]
    intro hcontra
    cases hcontra
  · intro out hok pathStr hmem
    cases t with
    | file => cases hok
    | symlink => cases hok
    | special => cases hok
    | dir op r cs =>
      rcases hw : walkSegs exD exF [] (FSTree.dir op r cs) with er | l
      · rw [show discover exD exF (FSTree.dir op r cs) =
            Except.error DiscoverError.readFailure from by simp [discover, hw]] at hok
        cases hok
      · rw [show discover exD exF (FSTree.dir op r cs) =
            Except.ok (sortPaths (l.map joinSegs)) from by simp [discover, hw]] at hok
        have hout : out = sortPaths (l.map joinSegs) := by
          cases hok; rfl
        subst hout
        have hmem' : pathStr ∈ l.map joinSegs :=
          (sortPaths_perm (l.map joinSegs)).mem_iff.mp hmem
        rcases List.mem_map.mp hmem' with ⟨segs, hsmem, rfl⟩
        exact ⟨segs, rfl, hfirst l hw segs hsmem⟩

/-- Witness for `discovery_never_yields_symlink` on a tree with one file and one
symlink sibling. -/
theorem discovery_never_yields_symlink_witness :
    wellFormed (FSTree.dir true true [("a", true, FSTree.file), ("s", true, FSTree.symlink)])
      = true ∧
    lookupNode (FSTree.dir true true [("a", true, FSTree.file), ("s", true, FSTree.symlink)])
      ["a"] = some FSTree.file :=
  ⟨by decide,
    ((discovery_never_yields_symlink [] []
      (FSTree.dir true true [("a", true, FSTree.file), ("s", true, FSTree.symlink)])
      (by decide)).1 [["a"]] rfl ["a"] (by decide)).1⟩

/-- C3 (amended): the discovery output of a successful traversal is sorted
ascending under the modelled locale-aware, numeric-aware comparator, and it is a
function of the multiset of surviving files provided no two distinct surviving
relative paths collate equal — ICU numeric collation ties strings whose digit
runs are numerically equal (e.g. differing only in leading zeros), and for trees
containing such paths the stable sort preserves enumeration order instead. -/
theorem discover_sorted_deterministic (exD exF : List String) (t t' : FSTree)
    (l l' : List (List String))
    (hw : walkSegs exD exF [] t = Except.ok l)
    (hw' : walkSegs exD exF [] t' = Except.ok l')
    (hsame : ((l.map joinSegs : List String) : Multiset String) =
      ((l'.map joinSegs : List String) : Multiset String))
    (hnt : ∀ a, a ∈ l.map joinSegs → ∀ b, b ∈ l.map joinSegs →
      localeLe a b = true → localeLe b a = true → a = b) :
    (sortPaths (l.map joinSegs)).Pairwise (fun a b => localeLe a b = true) ∧
    sortPaths (l.map joinSegs) = sortPaths (l'.map joinSegs) ∧
    (∀ op r cs, walkSegs exD exF [] (FSTree.dir op r cs) = Except.ok l →
      discover exD exF (FSTree.dir op r cs) = Except.ok (sortPaths (l.map joinSegs))) := by
  refine ⟨sortPaths_sorted _, ?_, ?_⟩
  · exact sortPaths_eq_of_perm_of_no_ties (Multiset.coe_eq_coe.mp hsame) hnt
  · intro op r cs hok
    simp [discover, hok]

/-- Witness for `discover_sorted_deterministic`: the same two (non-collating-equal)
files enumerated in the two possible orders produce the same sorted output. -/
theorem discover_sorted_deterministic_witness :
    walkSegs [] [] [] (FSTree.dir true true [("b2", true, FSTree.file), ("a10", true, FSTree.file)])
      = Except.ok [["b2"], ["a10"]] ∧
    sortPaths ["b2", "a10"] = sortPaths ["a10", "b2"] := by
  refine ⟨rfl, ?_⟩
  exact (discover_sorted_deterministic [] []
    (FSTree.dir true true [("b2", true, FSTree.file), ("a10", true, FSTree.file)])
    (FSTree.dir true true [("a10", true, FSTree.file), ("b2", true, FSTree.file)])
    [["b2"], ["a10"]] [["a10"], ["b2"]] rfl rfl (by decide) (by decide)).2.1

/-- Counterexample to C3 as stated: `01` and `1` collate equal under numeric
collation, so the two enumeration orders of the same two files — the same
multiset of surviving paths — are both already sorted and the stable sort returns
them unchanged: the discovery output differs although the tree is unchanged. -/
theorem discover_sorted_deterministic_counterexample :
    walkSegs [] [] [] (FSTree.dir true true [("01", true, FSTree.file), ("1", true, FSTree.file)])
      = Except.ok [["01"], ["1"]] ∧
    walkSegs [] [] [] (FSTree.dir true true [("1", true, FSTree.file), ("01", true, FSTree.file)])
      = Except.ok [["1"], ["01"]] ∧
    ((["01", "1"] : List String) : Multiset String) = (["1", "01"] : List String) ∧
    localeLe "01" "1" = true ∧ localeLe "1" "01" = true ∧ "01" ≠ "1" ∧
    discover [] [] (FSTree.dir true true [("01", true, FSTree.file), ("1", true, FSTree.file)])
      = Except.ok ["01", "1"] ∧
    discover [] [] (FSTree.dir true true [("1", true, FSTree.file), ("01", true, FSTree.file)])
      = Except.ok ["1", "01"] ∧
    (["01", "1"] : List String) ≠ ["1", "01"] := by
  have h1 : sortPaths ["01", "1"] = ["01", "1"] :=
    List.mergeSort_of_sorted (by decide)
  have h2 : sortPaths ["1", "01"] = ["1", "01"] :=
    List.mergeSort_of_sorted (by decide)
  refine ⟨rfl, rfl, by decide, by decide, by decide, by decide, ?_, ?_, by decide⟩
  · show Except.ok (sortPaths ["01", "1"]) = Except.ok ["01", "1"]
    rw [h1]
  · show Except.ok (sortPaths ["1", "01"]) = Except.ok ["1", "01"]
    rw [h2]

theorem mapSeq_length (f : α → Nat → β) : ∀ (l : List α) (i : Nat), (mapSeq f l i).length = l.length
  | [], _ => rfl
  | _ :: rest, i => by simp [mapSeq, mapSeq_length f rest (i + 1)]

theorem mapSeq_getElem? (f : α → Nat → β) :
    ∀ (l : List α) (i j : Nat), (mapSeq f l i)[j]? = l[j]?.map (fun a => f a (i + j))
  | [], _, _ => by simp [mapSeq]
  | a :: rest, i, 0 => by simp [mapSeq]
  | a :: rest, i, j + 1 => by
    simp only [mapSeq, List.getElem?_cons_succ]
    rw [mapSeq_getElem? f rest (i + 1) j]
    have : i + 1 + j = i + (j + 1) := by omega
    rw [this]

theorem poolInv_init (items : List α) (f : α → Nat → β) (k : Nat) :
    PoolInv items f k (initPool k items.length) := by
  refine ⟨by simp [initPool], ?_, ?_, ?_, ?_⟩
  · intro j hj; cases hj
  · exact List.nodup_nil
  · left; simp [initPool]
  · intro j hj
    dsimp only [initPool]
    rw [List.getElem?_replicate, if_pos hj, if_neg (by omega)]

theorem poolInv_step {items : List α} {f : α → Nat → β} {k : Nat} {s s' : PoolState β}
    (hinv : PoolInv items f k s) (hstep : PoolStep items f s s') :
    PoolInv items f k s' := by
  obtain ⟨hlen, hwr, hnd, hcnt, hres⟩ := hinv
  cases hstep with
  | claimExit h hge =>
    refine ⟨hlen, ?_, hnd, ?_, ?_⟩
    · intro j hj
      have := hwr j hj
      dsimp only
      exact ⟨by omega, this.2⟩
    · right; dsimp only; omega
    · intro j hj
      dsimp only
      rw [hres j hj]
      by_cases hc : j < s.next ∧ j ∉ s.writing
      · rw [if_pos hc, if_pos ⟨by omega, hc.2⟩]
      · rw [if_neg hc, if_neg (by
          rintro ⟨h1, h2⟩
          exact hc ⟨by omega, h2⟩)]
  | claimWork h hlt =>
    refine ⟨hlen, ?_, ?_, ?_, ?_⟩
    · intro j hj
      dsimp only at hj ⊢
      rcases List.mem_cons.mp hj with rfl | hj
      · exact ⟨by omega, hlt⟩
      · have := hwr j hj
        exact ⟨by omega, this.2⟩
    · dsimp only
      rw [List.nodup_cons]
      exact ⟨fun hmem => by have := hwr _ hmem; omega, hnd⟩
    · dsimp only
      rcases hcnt with hc | hc
      · left; rw [List.length_cons]; omega
      · right; omega
    · intro j hj
      dsimp only
      rw [hres j hj]
      by_cases hje : j = s.next
      · subst hje
        rw [if_neg (by omega), if_neg (by
          rintro ⟨_, h2⟩
          exact h2 (List.mem_cons_self _ _))]
      · by_cases hc : j < s.next ∧ j ∉ s.writing
        · rw [if_pos hc, if_pos ⟨by omega, by
            intro hm
            rcases List.mem_cons.mp hm with rfl | hm
            · exact hje rfl
            · exact hc.2 hm⟩]
        · rw [if_neg hc, if_neg (by
            rintro ⟨h1, h2⟩
            refine hc ⟨by omega, fun hm => h2 ?_⟩
            exact List.mem_cons_of_mem _ hm)]
  | write j hj hjlt =>
    have hjn := hwr j hj
    refine ⟨by dsimp only; rw [List.length_set]; exact hlen, ?_, hnd.erase j, ?_, ?_⟩
    · intro j' hj'
      dsimp only at hj' ⊢
      exact hwr j' (List.mem_of_mem_erase hj')
    · dsimp only
      rcases hcnt with hc | hc
      · left
        rw [List.length_erase_of_mem hj]
        have : 1 ≤ s.writing.length := List.length_pos.mpr (List.ne_nil_of_mem hj)
        omega
      · right; omega
    · intro j' hj'
      dsimp only
      by_cases hje : j' = j
      · subst hje
        rw [List.getElem?_set_self (by omega)]
        rw [if_pos ⟨(hwr j' hj).1, by
          intro hmem
          rw [hnd.mem_erase_iff] at hmem
          exact hmem.1 rfl⟩]
      · rw [List.getElem?_set_ne (fun h => hje h.symm)]
        rw [hres j' hj']
        by_cases hc : j' < s.next ∧ j' ∉ s.writing
        · rw [if_pos hc, if_pos ⟨hc.1, by
            intro hmem
            exact hc.2 (List.mem_of_mem_erase hmem)⟩]
        · rw [if_neg hc, if_neg (by
            rintro ⟨h1, h2⟩
            refine hc ⟨h1, fun hm => h2 ?_⟩
            rw [hnd.mem_erase_iff]
            exact ⟨hje, hm⟩)]

theorem poolInv_reach {items : List α} {f : α → Nat → β} {k : Nat} {s s' : PoolState β}
    (hinv : PoolInv items f k s) (hreach : PoolReach items f s s') :
    PoolInv items f k s' := by
  induction hreach with
  | refl => exact hinv
  | tail _ hstep ih => exact poolInv_step ih hstep

/-- Any complete pool run (all workers exited, no write pending) fills every slot
with the mapper value of its own index. -/
theorem pool_final_results {items : List α} {f : α → Nat → β} {k : Nat} {s : PoolState β}
    (hreach : PoolReach items f (initPool k items.length) s)
    (hk : 1 ≤ k ∨ items.length = 0)
    (hclaim : s.claiming = 0) (hwrite : s.writing = []) :
    s.results = (mapWithConcurrencySeq items f).map some := by
  obtain ⟨hlen, _, _, hcnt, hres⟩ := poolInv_reach (poolInv_init items f k) hreach
  have hnext : items.length ≤ s.next := by
    rcases hcnt with hc | hc
    · rw [hclaim, hwrite] at hc
      simp only [List.length_nil] at hc
      rcases hk with hk | hk
      · omega
      · omega
    · exact hc
  apply List.ext_getElem?
  intro n
  by_cases hn : n < items.length
  · have := hres n hn
    rw [hwrite] at this
    rw [this, if_pos ⟨by omega, by simp⟩]
    rw [List.getElem?_map, mapWithConcurrencySeq, mapSeq_getElem?]
    rw [List.getElem?_eq_getElem hn]
    simp
  · have h1 : s.results[n]? = none := by
      rw [List.getElem?_eq_none]
      omega
    have h2 : ((mapWithConcurrencySeq items f).map some)[n]? = none := by
      rw [List.getElem?_eq_none]
      simp only [List.length_map, mapWithConcurrencySeq, mapSeq_length]
      omega
    rw [h1, h2]

/-- C2: for every item list, every concurrency bound at least 1 and every pure
mapper, the sequential branch returns a list of the same length whose slot `i` is
`mapper(items[i], i)`, and every complete run of the `min(concurrency, length)`
worker pool fills the results array with exactly the `some`-image of that same
list — so a `concurrency <= 1` run and any completed `concurrency > 1` run agree. -/
theorem mapWithConcurrency_correct (items : List α) (f : α → Nat → β) (conc : Nat)
    (hconc : 1 ≤ conc) :
    ((mapWithConcurrencySeq items f).length = items.length ∧
      ∀ j (hj : j < items.length),
        (mapWithConcurrencySeq items f)[j]? = some (f (items.get ⟨j, hj⟩) j)) ∧
    (∀ s : PoolState β,
      PoolReach items f (initPool (min conc items.length) items.length) s →
      s.claiming = 0 → s.writing = [] →
      s.results = (mapWithConcurrencySeq items f).map some) := by
  refine ⟨⟨mapSeq_length f items 0, ?_⟩, ?_⟩
  · intro j hj
    rw [mapWithConcurrencySeq, mapSeq_getElem?, List.getElem?_eq_getElem hj]
    simp
  · intro s hreach hclaim hwrite
    refine pool_final_results hreach ?_ hclaim hwrite
    by_cases hlen : items.length = 0
    · right; exact hlen
    · left
      have : 1 ≤ items.length := by omega
      omega

/-- Witness for `mapWithConcurrency_correct`: a complete two-worker run over two
items reaches the fully written results array, which equals the sequential map. -/
theorem mapWithConcurrency_correct_witness :
    (1 : Nat) ≤ 2 ∧
    mapWithConcurrencySeq [10, 20] (fun a i => a + i) = [10, 21] ∧
    (PoolState.mk 4 [some 10, some 21] 0 [] : PoolState Nat).results =
      (mapWithConcurrencySeq [10, 20] (fun a i => a + i)).map some := by
  have hchain : PoolReach [10, 20] (fun a i => a + i)
      (initPool (min 2 ([10, 20] : List Nat).length) ([10, 20] : List Nat).length)
      (PoolState.mk 4 [some 10, some 21] 0 []) := by
    have s1 : PoolStep [10, 20] (fun a i => a + i)
        (PoolState.mk 0 [none, none] 2 []) (PoolState.mk 1 [none, none] 1 [0]) :=
      PoolStep.claimWork _ (by decide) (by decide)
    have s2 : PoolStep [10, 20] (fun a i => a + i)
        (PoolState.mk 1 [none, none] 1 [0]) (PoolState.mk 2 [none, none] 0 [1, 0]) :=
      PoolStep.claimWork _ (by decide) (by decide)
    have s3 : PoolStep [10, 20] (fun a i => a + i)
        (PoolState.mk 2 [none, none] 0 [1, 0]) (PoolState.mk 2 [none, some 21] 1 [0]) :=
      PoolStep.write _ 1 (by decide) (by decide)
    have s4 : PoolStep [10, 20] (fun a i => a + i)
        (PoolState.mk 2 [none, some 21] 1 [0]) (PoolState.mk 2 [some 10, some 21] 2 []) :=
      PoolStep.write _ 0 (by decide) (by decide)
    have s5 : PoolStep [10, 20] (fun a i => a + i)
        (PoolState.mk 2 [some 10, some 21] 2 []) (PoolState.mk 3 [some 10, some 21] 1 []) :=
      PoolStep.claimExit _ (by decide) (by decide)
    have s6 : PoolStep [10, 20] (fun a i => a + i)
        (PoolState.mk 3 [some 10, some 21] 1 []) (PoolState.mk 4 [some 10, some 21] 0 []) :=
      PoolStep.claimExit _ (by decide) (by decide)
    exact Relation.ReflTransGen.tail
      (Relation.ReflTransGen.tail
        (Relation.ReflTransGen.tail
          (Relation.ReflTransGen.tail
            (Relation.ReflTransGen.tail
              (Relation.ReflTransGen.tail Relation.ReflTransGen.refl s1) s2) s3) s4) s5) s6
  refine ⟨by decide, by decide, ?_⟩
  exact (mapWithConcurrency_correct [10, 20] (fun a i => a + i) 2 (by decide)).2
    (PoolState.mk 4 [some 10, some 21] 0 []) hchain rfl rfl

theorem classifyRow_relativePath (maxBytes : Nat) (readers : String → ReaderResponses)
    (binaryCheck : List Nat → Bool) (rel : String) :
    (classifyRow maxBytes readers binaryCheck rel).relativePath = rel := by
  unfold classifyRow
  rcases hco : classifyOne maxBytes rel (readers rel) binaryCheck with e | r
  · rfl
  · cases hc : r.decision.category <;> simp [hc]

theorem mapSeq_const_index (g : α → β) :
    ∀ (l : List α) (i : Nat), mapSeq (fun a _ => g a) l i = l.map g
  | [], _ => rfl
  | a :: rest, i => by
    simp [mapSeq, mapSeq_const_index g rest (i + 1)]

/-- C1: every discovered entry produces exactly one row with the same relative
path — index-aligned, so the multiset of classified relative paths equals the
multiset of discovered relative paths; an exception while classifying one item is
caught per item and becomes `omit/READ_ERROR`; and every complete run of the
8-bounded worker pool fills all slots with exactly these rows, so no failure
aborts the batch or drops an item. -/
theorem generateReport_isolation (files : List String) (readers : String → ReaderResponses) :
    (generateReportRows files readers).map (fun row => row.relativePath) = files ∧
    (generateReportRows files readers).length = files.length ∧
    ((generateReportRows files readers).map (fun row => row.relativePath) : Multiset String) =
      (files : Multiset String) ∧
    (∀ rel e,
      classifyOne DEFAULT_MAX_BYTES rel (readers rel) defaultBinaryCheck = Except.error e →
      classifyRow DEFAULT_MAX_BYTES readers defaultBinaryCheck rel =
        ⟨rel, FileCategory.omit, some OmitReason.READ_ERROR⟩) ∧
    (∀ s : PoolState Row,
      PoolReach files
        (fun rel _ => classifyRow DEFAULT_MAX_BYTES readers defaultBinaryCheck rel)
        (initPool (min 8 files.length) files.length) s →
      s.claiming = 0 → s.writing = [] →
      s.results = (generateReportRows files readers).map some) := by
  have hmap : (generateReportRows files readers).map (fun row => row.relativePath) = files := by
    rw [generateReportRows, mapWithConcurrencySeq, mapSeq_const_index, List.map_map]
    have : ((fun row => Row.relativePath row) ∘
        fun rel => classifyRow DEFAULT_MAX_BYTES readers defaultBinaryCheck rel) =
        fun rel => rel := by
      funext rel
      exact classifyRow_relativePath DEFAULT_MAX_BYTES readers defaultBinaryCheck rel
    rw [this]
    exact List.map_id' files
  refine ⟨hmap, ?_, by rw [hmap], ?_, ?_⟩
  · have := congrArg List.length hmap
    simpa using this
  · intro rel e herr
    unfold classifyRow
    rw [herr]
  · intro s hreach hclaim hwrite
    refine pool_final_results hreach ?_ hclaim hwrite
    by_cases hlen : files.length = 0
    · right; exact hlen
    · left; omega

/-- Witness for `generateReport_isolation`: one healthy file and one whose reader
throws; the failing item degrades to `omit/READ_ERROR` and both paths survive. -/
theorem generateReport_isolation_witness :
    generateReportRows ["a.ts", "bad.bin"] witnessReaders =
      [⟨"a.ts", FileCategory.code, none⟩,
        ⟨"bad.bin", FileCategory.omit, some OmitReason.READ_ERROR⟩] ∧
    (generateReportRows ["a.ts", "bad.bin"] witnessReaders).map
        (fun row => row.relativePath) =
      ["a.ts", "bad.bin"] := by
  have hbc : defaultBinaryCheck [104] = false := by
    rw [show defaultBinaryCheck [104] =
      decide ((((0 : Nat) : ℚ)) / (((1 : Nat) : ℚ)) >
        defaultBinaryHeuristicOptions.nonPrintableThreshold) from rfl]
    apply decide_eq_false
    norm_num [defaultBinaryHeuristicOptions]
  have hrowA : classifyRow DEFAULT_MAX_BYTES witnessReaders defaultBinaryCheck "a.ts" =
      ⟨"a.ts", FileCategory.code, none⟩ := by
    unfold classifyRow
    rw [show witnessReaders "a.ts" = ⟨Except.ok 10, Except.ok [104]⟩ from rfl]
    rw [show classifyOne DEFAULT_MAX_BYTES "a.ts" ⟨Except.ok 10, Except.ok [104]⟩
          defaultBinaryCheck = Except.ok ⟨"a.ts", classifyByName "a.ts"⟩ from by
      simp [classifyOne, Bind.bind, Except.bind, Pure.pure, Except.pure, hbc,
        show ¬((10 : Nat) > DEFAULT_MAX_BYTES) from by norm_num [DEFAULT_MAX_BYTES]]]
    rw [show classifyByName "a.ts" = ⟨FileCategory.code, none, some "ts"⟩ from by decide]
  have hrowB : classifyRow DEFAULT_MAX_BYTES witnessReaders defaultBinaryCheck "bad.bin" =
      ⟨"bad.bin", FileCategory.omit, some OmitReason.READ_ERROR⟩ := rfl
  constructor
  · simp only [generateReportRows, mapWithConcurrencySeq, mapSeq]
    rw [hrowA, hrowB]
  · exact (generateReport_isolation ["a.ts", "bad.bin"] witnessReaders).1
